import Mathlib

/-!
Verification of the fixed-capacity multiset library (Rust sources
`src/simd_impl.rs` and `src/simd/simd_array.rs`).

Two data models are embedded:

* the flat model of `Multiset2<u16, SIZE>` from `simd_impl.rs`: a multiset is a
  `List Nat` of `SIZE` u16 multiplicities (each `< 2^16`); `usize` arithmetic is
  modelled as `Nat` arithmetic modulo `2^64`, and u16 SIMD-lane arithmetic as
  `Nat` arithmetic modulo `2^16`;

* the nested model of `Multiset<$simd, UInt<U, B>>` from `simd/simd_array.rs`:
  the storage is an array of SIMD vectors, embedded as a `List (List Nat)` whose
  rows all have length `L` (the lane count) and whose entries are below the
  scalar width `W = 2^8 / 2^16 / 2^32`.  Scalar (`$scalar`) arithmetic wraps at
  `W`, which release-mode Rust and the `wrapping_sum` horizontal reduction both
  perform silently.
-/

namespace MultisetSimd

/-- Modulus of `usize`: 64-bit unsigned wrap-around. -/
def U64 : Nat := 2 ^ 64

/-- Modulus of `u16`: the SIMD lane width used by `Multiset2<u16, SIZE>` kernels. -/
def U16 : Nat := 2 ^ 16

/-! ## Flat model: `Multiset2<u16, SIZE>` (`src/simd_impl.rs`) -/

/-- Embedding of `_total_default`: `self.data.iter().map(|e| *e as usize).sum()` — every
multiplicity widened to `usize` and summed with (wrapping) `usize` addition. -/
def totalDefault (data : List Nat) : Nat :=
  data.foldl (fun acc e => (acc + e) % U64) 0

/-- The full chunks of width `lanes` that `fold_chunks` hands to the SIMD
kernel: chunk `i` is `data[i*lanes .. (i+1)*lanes]`. -/
def fullChunks (lanes : Nat) (data : List Nat) : List (List Nat) :=
  (List.range (data.length / lanes)).map (fun i => (data.drop (i * lanes)).take lanes)

/-- The remainder (length `data.length mod lanes`) after the full chunks. -/
def chunkRem (lanes : Nat) (data : List Nat) : List Nat :=
  data.drop (data.length / lanes * lanes)

/-- One step of the `total_simd!` fold kernel: `acc + simd_a`, a lanewise u16
addition, which wraps at `2^16` per lane (packed SIMD addition never traps). -/
def laneAddU16 (acc chunk : List Nat) : List Nat :=
  List.zipWith (fun a x => (a + x) % U16) acc chunk

/-- The `total_simd!` tier kernels (`_total_sse42` with 8 lanes,
`_total_avx`/`_total_avx2` with 16): if `SIZE < lanes` fall back to the scalar
sum; otherwise fold the full chunks into a `u16xN` accumulator with lanewise
wrapping adds, write the lanes out and sum them as `usize`.
Modelled from the spec: `fold_chunks` lives in `chunks.rs`, which is not among
the provided sources; per §4.8 the remainder (`SIZE mod lanes`) is processed by
an equivalent scalar computation folded into the same accumulator, modelled
here as a scalar u16-wrapping sum added into the widened total. -/
def totalSimd (lanes : Nat) (data : List Nat) : Nat :=
  if data.length < lanes then
    data.foldl (fun acc e => (acc + e) % U64) 0
  else
    (((fullChunks lanes data).foldl laneAddU16 (List.replicate lanes 0)).foldl
        (fun acc e => (acc + e) % U64) 0
      + (chunkRem lanes data).foldl (fun acc e => (acc + e) % U16) 0) % U64

/-- The accumulation walk of `choose_random` (both variants), parameterized by
the wrap-around modulus `M` of the accumulator (`2^64` for the `usize`
accumulator of `simd_impl.rs`, the scalar width `W` for `simd_array.rs`):
walk the positions in order, add each multiplicity into the accumulator, and at
the first position where the accumulator reaches the ticket `t`, keep that
multiplicity and zero everything after it; positions walked past are zeroed. -/
def walkW (M t : Nat) : Nat → List Nat → List Nat
  | _, [] => []
  | acc, e :: es =>
    if t ≤ (acc + e) % M then e :: List.replicate es.length 0
    else 0 :: walkW M t ((acc + e) % M) es

/-- Embedding of `Multiset2::choose_random` (`simd_impl.rs`): if `total() == 0` return
immediately leaving the data unchanged, otherwise walk with the drawn ticket
(`rng.gen_range(1..=total)` is modelled by the explicit `ticket` argument). -/
def chooseRandom2 (data : List Nat) (ticket : Nat) : List Nat :=
  if totalDefault data = 0 then data else walkW U64 ticket 0 data

/-! ## Nested model: `Multiset<$simd, UInt<U, B>>` (`src/simd/simd_array.rs`) -/

/-- Well-formed storage: every SIMD vector holds exactly `L` lanes. -/
abbrev rowsLen (L : Nat) (d : List (List Nat)) : Prop := ∀ r ∈ d, r.length = L

/-- All multiplicities fit in the scalar width `W`. -/
abbrev valsLt (W : Nat) (d : List (List Nat)) : Prop := ∀ r ∈ d, ∀ x ∈ r, x < W

/-- The inner lane loop of `from_iter`: starting from `$simd::ZERO`, replace
lane `j` with the next iterator value while the iterator yields one — i.e. the
first `L` values of the stream, zero-padded to length `L`. -/
def padRow (L : Nat) (it : List Nat) : List Nat :=
  it.take L ++ List.replicate (L - it.length) 0

/-- Embedding of `FromIterator::from_iter`: fill `C` vectors in order, each consuming up to
`L` values from the stream (the stream is modelled as the list of values the
iterator would yield). -/
def fromIterArr : Nat → Nat → List Nat → List (List Nat)
  | 0, _, _ => []
  | c + 1, L, it => padRow L it :: fromIterArr c L (it.drop L)

/-- Embedding of `total`: `self.fold(ZERO, |acc, vec| acc + vec).wrapping_sum()` — fold all
vectors into a lanewise accumulator with wrapping (mod `W`) adds, then reduce
the lanes horizontally with wrapping adds. -/
def totalArr (W L : Nat) (d : List (List Nat)) : Nat :=
  (d.foldl (fun acc v => List.zipWith (fun a b => (a + b) % W) acc v)
      (List.replicate L 0)).foldl (fun a b => (a + b) % W) 0

/-- Embedding of `self.data.get_unchecked(a).extract_unchecked(i)` (in-bounds by the loop
ranges in the source). -/
def getLane (d : List (List Nat)) (a i : Nat) : Nat := (d.getD a []).getD i 0

/-- Embedding of `argmax`: scan `arr_idx` in `0..C` and lane `i` in `0..L`, replacing the
running best only on a strict increase; the stored index is the flattened
global index `arr_idx * lanes + i`. -/
def argmaxArr (L : Nat) (d : List (List Nat)) : Nat × Nat :=
  ((List.range d.length).flatMap (fun a => (List.range L).map (Prod.mk a))).foldl
    (fun best p =>
      if best.2 < getLane d p.1 p.2 then (p.1 * L + p.2, getLane d p.1 p.2) else best)
    (0, getLane d 0 0)

/-- Embedding of `argmin`: same scan with a strict decrease — but the stored index is the
in-vector lane offset `i` alone (`the_i = i;`), not the global index. -/
def argminArr (L : Nat) (d : List (List Nat)) : Nat × Nat :=
  ((List.range d.length).flatMap (fun a => (List.range L).map (Prod.mk a))).foldl
    (fun best p =>
      if getLane d p.1 p.2 < best.2 then (p.2, getLane d p.1 p.2) else best)
    (0, getLane d 0 0)

/-- Embedding of `m::splat(false).replace(j, true)` then `mask.select(vec, ZERO)`: keep lane
`j`, zero every other lane. -/
def maskRow : Nat → List Nat → List Nat
  | _, [] => []
  | 0, x :: xs => x :: xs.map (fun _ => 0)
  | j + 1, _ :: xs => 0 :: maskRow j xs

/-- Embedding of `*elem_vec *= ZERO` applied to every remaining vector. -/
def zeroRows (d : List (List Nat)) : List (List Nat) :=
  d.map (fun r => r.map (fun _ => 0))

/-- The row loop of `choose`: vectors before the target index are zeroed
(countdown on `ai`), the target vector is masked to its lane `vi`, and all
later vectors are zeroed.  When `ai` exceeds the number of vectors every vector
is zeroed. -/
def chooseGo (vi : Nat) : Nat → List (List Nat) → List (List Nat)
  | _, [] => []
  | 0, r :: rs => maskRow vi r :: zeroRows rs
  | ai + 1, r :: rs => r.map (fun _ => 0) :: chooseGo vi ai rs

/-- Embedding of `choose(elem)`: `array_index = elem / lanes`, `vector_index = elem % lanes`,
then the row loop. -/
def chooseArr (L elem : Nat) (d : List (List Nat)) : List (List Nat) :=
  chooseGo (elem % L) (elem / L) d

/-- The inner lane loop of `choose_random` (`simd_array.rs`): accumulate lanes
into the `$scalar` (wrap at `W`) accumulator and report the first lane where
the accumulator reaches the ticket. -/
def scanRow (W t : Nat) : Nat → Nat → List Nat → Nat × Option Nat
  | acc, _, [] => (acc, none)
  | acc, j, x :: xs =>
    if t ≤ (acc + x) % W then ((acc + x) % W, some j)
    else scanRow W t ((acc + x) % W) (j + 1) xs

/-- The vector loop of `choose_random` (`simd_array.rs`): once a lane has been
chosen its vector is masked and all later vectors are zeroed; a vector whose
scan does not reach the ticket is zeroed and the accumulator carries over. -/
def chooseRandomArrGo (W t : Nat) : Nat → List (List Nat) → List (List Nat)
  | _, [] => []
  | acc, r :: rs =>
    match scanRow W t acc 0 r with
    | (_, some j) => maskRow j r :: zeroRows rs
    | (a, none) => r.map (fun _ => 0) :: chooseRandomArrGo W t a rs

/-- Embedding of `Multiset::choose_random` (`simd_array.rs`): no zero-total short-circuit;
the ticket (`rng.gen_range(ZERO, total + ONE)`, i.e. uniform over
`[0, total()]`) is modelled by the explicit `t` argument. -/
def chooseRandomArr (W t : Nat) (d : List (List Nat)) : List (List Nat) :=
  chooseRandomArrGo W t 0 d

/-- Embedding of `zip_map` over the underlying vectors.  Modelled from the spec: `zip_map`
itself lives in `multiset.rs`, which is not among the provided sources; per
§4.4 `intersection`/`union` are the elementwise minimum/maximum, applied here
vector by vector, lane by lane. -/
def zipMapArr (f : Nat → Nat → Nat) (A B : List (List Nat)) : List (List Nat) :=
  List.zipWith (fun r1 r2 => List.zipWith f r1 r2) A B

/-- Embedding of `intersection`: `self.zip_map(other, |s1, s2| s1.min(s2))`. -/
def interArr (A B : List (List Nat)) : List (List Nat) := zipMapArr Nat.min A B

/-- Embedding of `union`: `self.zip_map(other, |s1, s2| s1.max(s2))`. -/
def unionArr (A B : List (List Nat)) : List (List Nat) := zipMapArr Nat.max A B

/-- Embedding of `is_subset`: zip the vector arrays and require `s1.le(s2).all()` on every
pair. -/
def isSubsetArr (A B : List (List Nat)) : Bool :=
  (A.zip B).all (fun p => (p.1.zip p.2).all (fun q => decide (q.1 ≤ q.2)))

/-- Embedding of `is_superset`: `s1.ge(s2).all()` on every pair. -/
def isSupersetArr (A B : List (List Nat)) : Bool :=
  (A.zip B).all (fun p => (p.1.zip p.2).all (fun q => decide (q.2 ≤ q.1)))

/-- Embedding of `is_any_lesser`: `s1.lt(s2).any()` on some pair. -/
def isAnyLesserArr (A B : List (List Nat)) : Bool :=
  (A.zip B).any (fun p => (p.1.zip p.2).any (fun q => decide (q.1 < q.2)))

/-- Embedding of `is_any_greater`: `s1.gt(s2).any()` on some pair. -/
def isAnyGreaterArr (A B : List (List Nat)) : Bool :=
  (A.zip B).any (fun p => (p.1.zip p.2).any (fun q => decide (q.2 < q.1)))

/-! ## Theorems -/

/-- Claim C1. The claim that every vector-tier total kernel returns the same
value as the scalar baseline `_total_default` on every input is violated by the
code: on the 16-element u16 multiset with multiplicity 40000 at indices 0 and 8
the 8-lane (`sse4.2`) tier kernel accumulates `40000 + 40000` in a u16 lane,
wrapping to 14464, while the scalar baseline returns 80000. -/
theorem c1_total_tier_divergence :
    totalSimd 8 [40000, 0, 0, 0, 0, 0, 0, 0, 40000, 0, 0, 0, 0, 0, 0, 0] = 14464 ∧
    totalDefault [40000, 0, 0, 0, 0, 0, 0, 0, 40000, 0, 0, 0, 0, 0, 0, 0] = 80000 := by
  decide

/-- Claim C2. `argmax` does return the first-index maximum over the flattened
chunks, but `argmin` stores the in-chunk lane offset instead of the global
index: on the two-vector, two-lane storage `[[5,5],[3,5]]` (flattened
`[5,5,3,5]`) the unique minimum 3 first occurs at global index 2, yet `argmin`
returns index 0. -/
theorem c2_argmin_index_divergence :
    argminArr 2 [[5, 5], [3, 5]] = (0, 3) ∧
    ([[5, 5], [3, 5]] : List (List Nat)).flatten = [5, 5, 3, 5] ∧
    List.findIdx (fun x => x == 3) [5, 5, 3, 5] = 2 ∧
    argmaxArr 2 [[5, 9], [9, 3]] = (1, 9) := by
  decide

/-- Claim C3, counterexample. The claim that `choose_random` leaves the instance
unchanged when `total() == 0` is false for the `simd_array.rs` variant: on the
u8 storage `[[255,1]]` the wrapping total is 0, the drawn ticket (uniform over
`[0, total()]`) is necessarily 0, and the walk keeps position 0 and zeroes
position 1, changing the multiset. -/
theorem c3_zero_total_counterexample :
    totalArr 256 2 [[255, 1]] = 0 ∧
    chooseRandomArr 256 0 [[255, 1]] = [[255, 0]] ∧
    ([[255, 0]] : List (List Nat)) ≠ [[255, 1]] := by
  decide

/-! ### Modular-sum helper lemmas -/

theorem foldl_addmod (W : Nat) : ∀ (l : List Nat) (s : Nat),
    l.foldl (fun a b => (a + b) % W) (s % W) = (s + l.sum) % W := by
  intro l
  induction l with
  | nil => intro s; simp
  | cons x xs ih =>
    intro s
    simp only [List.foldl_cons, List.sum_cons]
    rw [Nat.mod_add_mod, ih (s + x), Nat.add_assoc]

theorem foldl_addmod_zero (W : Nat) (l : List Nat) :
    l.foldl (fun a b => (a + b) % W) 0 = l.sum % W := by
  have h := foldl_addmod W l 0
  simpa using h

theorem zipWith_addmod_sum (W : Nat) : ∀ (a b : List Nat), a.length = b.length →
    (List.zipWith (fun x y => (x + y) % W) a b).sum % W = (a.sum + b.sum) % W := by
  intro a
  induction a with
  | nil =>
    intro b h
    cases b with
    | nil => simp
    | cons y ys => simp at h
  | cons x xs ih =>
    intro b h
    cases b with
    | nil => simp at h
    | cons y ys =>
      have hl : xs.length = ys.length := by simpa using h
      simp only [List.zipWith_cons_cons, List.sum_cons]
      rw [Nat.mod_add_mod, Nat.add_mod (x + y), ih ys hl, ← Nat.add_mod]
      have hc : x + y + (xs.sum + ys.sum) = x + xs.sum + (y + ys.sum) := by ring
      rw [hc]

/-- The lanewise vertical fold of `total` keeps `L` lanes, and the lane sums
agree with the flat sum modulo the scalar width. -/
theorem laneFold_props (W L : Nat) : ∀ (d : List (List Nat)) (acc0 : List Nat),
    rowsLen L d → acc0.length = L →
    (d.foldl (fun acc v => List.zipWith (fun a b => (a + b) % W) acc v) acc0).length = L ∧
    (d.foldl (fun acc v => List.zipWith (fun a b => (a + b) % W) acc v) acc0).sum % W
      = (acc0.sum + d.flatten.sum) % W := by
  intro d
  induction d with
  | nil => intro acc0 _ hlen; simpa using hlen
  | cons r rs ih =>
    intro acc0 hrow hlen
    have hr : r.length = L := hrow r (by simp)
    have hrs : rowsLen L rs := fun q hq => hrow q (List.mem_cons_of_mem _ hq)
    have hzl : (List.zipWith (fun a b => (a + b) % W) acc0 r).length = L := by
      rw [List.length_zipWith, hlen, hr]
      simp
    simp only [List.foldl_cons]
    obtain ⟨h1, h2⟩ := ih (List.zipWith (fun a b => (a + b) % W) acc0 r) hrs hzl
    refine ⟨h1, ?_⟩
    rw [h2, Nat.add_mod, zipWith_addmod_sum W acc0 r (by rw [hlen, hr]),
      Nat.mod_add_mod, Nat.add_mod_mod, List.flatten_cons, List.sum_append,
      Nat.add_assoc]

/-- Lemma: `total` on the nested storage is the flat sum of all multiplicities,
wrapped at the scalar width `W`. -/
theorem totalArr_eq (W L : Nat) (d : List (List Nat)) (h : rowsLen L d) :
    totalArr W L d = d.flatten.sum % W := by
  unfold totalArr
  obtain ⟨h1, h2⟩ := laneFold_props W L d (List.replicate L 0) h (by simp)
  rw [foldl_addmod_zero, h2]
  simp

/-- Claim C9. `total()` is the sum of all `N` multiplicities reduced modulo the
scalar width `W = 2^w`: the lanewise wrapping accumulation followed by the
wrapping horizontal sum silently wraps on overflow and never signals an
error. -/
theorem c9_total_wrapping (W L : Nat) (d : List (List Nat)) (h : rowsLen L d) :
    totalArr W L d = d.flatten.sum % W :=
  totalArr_eq W L d h

theorem c9_total_wrapping_witness :
    rowsLen 2 [[255, 1], [2, 0]] ∧
    totalArr 256 2 [[255, 1], [2, 0]]
      = ([[255, 1], [2, 0]] : List (List Nat)).flatten.sum % 256 :=
  ⟨by decide, c9_total_wrapping 256 2 [[255, 1], [2, 0]] (by decide)⟩

/-- Claim C5. `from_iter` consumes at most `C * L` values in order: the flattened
result is the first `min (C*L) (input.length)` values of the stream followed by
zeros, and the result depends only on the first `C * L` values of the stream
(values beyond the `N`'th are never read). -/
theorem c5_from_iter : ∀ (C L : Nat) (input : List Nat),
    (fromIterArr C L input).flatten
      = input.take (C * L) ++ List.replicate (C * L - input.length) 0 ∧
    fromIterArr C L input = fromIterArr C L (input.take (C * L)) := by
  intro C
  induction C with
  | zero => intro L input; simp [fromIterArr]
  | succ c ih =>
    intro L input
    have hmul : (c + 1) * L = c * L + L := by ring
    have hL1 : L ≤ (c + 1) * L := Nat.le_mul_of_pos_left L (Nat.succ_pos c)
    constructor
    · simp only [fromIterArr, List.flatten_cons]
      rw [(ih L (input.drop L)).1]
      unfold padRow
      rcases Nat.lt_or_ge input.length L with hlt | hge
      · rw [List.take_of_length_le (le_of_lt hlt), List.drop_eq_nil_of_le (le_of_lt hlt),
          List.take_of_length_le (le_trans (le_of_lt hlt) hL1)]
        simp only [List.take_nil, List.length_nil, Nat.sub_zero, List.nil_append,
          List.append_assoc, ← List.replicate_add]
        have hc : L - input.length + c * L = (c + 1) * L - input.length := by omega
        rw [hc]
      · rw [Nat.sub_eq_zero_of_le hge]
        simp only [List.replicate_zero, List.append_nil, List.length_drop]
        rw [← List.append_assoc, ← List.take_add]
        have h1 : L + c * L = (c + 1) * L := by ring
        have h2 : c * L - (input.length - L) = (c + 1) * L - input.length := by omega
        rw [h1, h2]
    · simp only [fromIterArr]
      have hhead : padRow L (input.take ((c + 1) * L)) = padRow L input := by
        unfold padRow
        rw [List.take_take, min_eq_left hL1, List.length_take]
        have hc : L - min ((c + 1) * L) input.length = L - input.length := by
          rcases le_total input.length ((c + 1) * L) with h | h
          · rw [min_eq_right h]
          · rw [min_eq_left h]
            omega
        rw [hc]
      have htail : fromIterArr c L ((input.take ((c + 1) * L)).drop L)
          = fromIterArr c L (input.drop L) := by
        rw [List.drop_take]
        have hc : (c + 1) * L - L = c * L := by omega
        rw [hc]
        exact ((ih L (input.drop L)).2).symm
      rw [hhead, htail]

/-! ### `choose` helper lemmas -/

theorem maskRow_length (j : Nat) : ∀ (r : List Nat), (maskRow j r).length = r.length := by
  induction j with
  | zero => intro r; cases r <;> simp [maskRow]
  | succ n ih =>
    intro r
    cases r with
    | nil => simp [maskRow]
    | cons x xs => simp [maskRow, ih xs]

theorem maskRow_eq (j : Nat) : ∀ (r : List Nat), j < r.length →
    maskRow j r = List.replicate j 0 ++ r.getD j 0 :: List.replicate (r.length - j - 1) 0 := by
  induction j with
  | zero =>
    intro r h
    cases r with
    | nil => simp at h
    | cons x xs => simp [maskRow, List.map_const']
  | succ n ih =>
    intro r h
    cases r with
    | nil => simp at h
    | cons x xs =>
      have h2 : n < xs.length := by simpa using h
      simp only [maskRow, ih xs h2, List.replicate_succ, List.cons_append,
        List.getD_cons_succ, List.length_cons]
      have hc : xs.length + 1 - (n + 1) - 1 = xs.length - n - 1 := by omega
      rw [hc]

theorem zeroRows_flatten : ∀ (d : List (List Nat)),
    (zeroRows d).flatten = List.replicate d.flatten.length 0 := by
  intro d
  induction d with
  | nil => simp [zeroRows]
  | cons r rs ih =>
    show (r.map (fun _ => 0) :: zeroRows rs).flatten = _
    rw [List.flatten_cons, ih, List.map_const', ← List.replicate_add]
    congr 1
    simp

theorem zeroRows_rowsLen (L : Nat) (d : List (List Nat)) (h : rowsLen L d) :
    rowsLen L (zeroRows d) := by
  intro q hq
  rcases List.mem_map.mp hq with ⟨p, hp, rfl⟩
  simp [h p hp]

theorem flatten_length (L : Nat) : ∀ (d : List (List Nat)), rowsLen L d →
    d.flatten.length = d.length * L := by
  intro d
  induction d with
  | nil => intro _; simp
  | cons r rs ih =>
    intro h
    have hr : r.length = L := h r (by simp)
    have hrs : rowsLen L rs := fun q hq => h q (List.mem_cons_of_mem _ hq)
    simp only [List.flatten_cons, List.length_append, hr, ih hrs, List.length_cons]
    ring

theorem flatten_getD (L : Nat) : ∀ (d : List (List Nat)) (ai vi : Nat),
    rowsLen L d → ai < d.length → vi < L →
    d.flatten.getD (ai * L + vi) 0 = getLane d ai vi := by
  intro d
  induction d with
  | nil => intro ai vi _ hai _; simp at hai
  | cons r rs ih =>
    intro ai vi hrow hai hvi
    have hr : r.length = L := hrow r (by simp)
    have hrs : rowsLen L rs := fun q hq => hrow q (List.mem_cons_of_mem _ hq)
    cases ai with
    | zero =>
      simp only [List.flatten_cons, Nat.zero_mul, Nat.zero_add]
      rw [List.getD_append _ _ _ _ (by rw [hr]; exact hvi)]
      rfl
    | succ n =>
      simp only [List.flatten_cons]
      have hle : r.length ≤ (n + 1) * L + vi := by
        rw [hr]
        exact le_trans (Nat.le_mul_of_pos_left L (Nat.succ_pos n)) (Nat.le_add_right _ _)
      rw [List.getD_append_right _ _ _ _ hle]
      have hidx : (n + 1) * L + vi - r.length = n * L + vi := by
        rw [hr]
        have hm : (n + 1) * L = n * L + L := by ring
        omega
      rw [hidx, ih n vi hrs (by simpa using hai) hvi]
      rfl

theorem chooseGo_rowsLen (L vi : Nat) : ∀ (d : List (List Nat)) (ai : Nat),
    rowsLen L d → rowsLen L (chooseGo vi ai d) := by
  intro d
  induction d with
  | nil => intro ai _ q hq; cases ai <;> simp [chooseGo] at hq
  | cons r rs ih =>
    intro ai h
    have hr : r.length = L := h r (by simp)
    have hrs : rowsLen L rs := fun q hq => h q (List.mem_cons_of_mem _ hq)
    cases ai with
    | zero =>
      intro q hq
      rcases List.mem_cons.mp hq with rfl | hq2
      · rw [maskRow_length, hr]
      · exact zeroRows_rowsLen L rs hrs q hq2
    | succ n =>
      intro q hq
      rcases List.mem_cons.mp hq with rfl | hq2
      · simp [hr]
      · exact ih n hrs q hq2

/-- Flattened characterization of the `choose` row loop: the target lane keeps
its value, everything else is zero; an out-of-range target zeroes everything. -/
theorem chooseGo_flatten (L vi : Nat) (hvi : vi < L) :
    ∀ (d : List (List Nat)) (ai : Nat), rowsLen L d →
    (chooseGo vi ai d).flatten =
      if ai < d.length then
        List.replicate (ai * L + vi) 0 ++
          getLane d ai vi :: List.replicate (d.length * L - (ai * L + vi) - 1) 0
      else List.replicate (d.length * L) 0 := by
  intro d
  induction d with
  | nil =>
    intro ai _
    cases ai <;> simp [chooseGo]
  | cons r rs ih =>
    intro ai hrow
    have hr : r.length = L := hrow r (by simp)
    have hrs : rowsLen L rs := fun q hq => hrow q (List.mem_cons_of_mem _ hq)
    have hrsflat : rs.flatten.length = rs.length * L := flatten_length L rs hrs
    cases ai with
    | zero =>
      rw [if_pos (by simp)]
      show (maskRow vi r :: zeroRows rs).flatten = _
      rw [List.flatten_cons, zeroRows_flatten, hrsflat,
        maskRow_eq vi r (by rw [hr]; exact hvi)]
      simp only [Nat.zero_mul, Nat.zero_add, hr, List.length_cons,
        List.append_assoc, List.cons_append]
      rw [← List.replicate_add]
      have hc : L - vi - 1 + rs.length * L = (rs.length + 1) * L - vi - 1 := by
        have hm : (rs.length + 1) * L = rs.length * L + L := by ring
        omega
      rw [hc]
      rfl
    | succ n =>
      show (r.map (fun _ => 0) :: chooseGo vi n rs).flatten = _
      rw [List.flatten_cons, List.map_const', hr, ih n hrs]
      by_cases hn : n < rs.length
      · rw [if_pos hn, if_pos (by simp only [List.length_cons]; omega)]
        rw [← List.append_assoc, ← List.replicate_add]
        have hc1 : L + (n * L + vi) = (n + 1) * L + vi := by ring
        have hc2 : rs.length * L - (n * L + vi) - 1
            = (rs.length + 1) * L - ((n + 1) * L + vi) - 1 := by
          have e1 : (rs.length + 1) * L = rs.length * L + L := by ring
          have e2 : (n + 1) * L = n * L + L := by ring
          omega
        simp only [List.length_cons]
        rw [hc1, hc2]
        rfl
      · rw [if_neg hn, if_neg (by simp only [List.length_cons]; omega)]
        rw [← List.replicate_add]
        simp only [List.length_cons]
        congr 1
        have e1 : (rs.length + 1) * L = rs.length * L + L := by ring
        omega

/-- Claim C4. After `choose(elem)`, position `elem` retains its original
multiplicity when `elem < N` and every other position is zero; when `elem` is
out of range every position is zero; consequently `total()` after `choose(elem)`
is the original `multiplicity[elem]`, or 0 when `elem` is out of range. -/
theorem c4_choose (W L : Nat) (d : List (List Nat)) (elem : Nat)
    (hL : 0 < L) (h : rowsLen L d) (hv : valsLt W d) :
    ((chooseArr L elem d).flatten =
      if elem < d.length * L then
        List.replicate elem 0 ++
          d.flatten.getD elem 0 :: List.replicate (d.length * L - elem - 1) 0
      else List.replicate (d.length * L) 0) ∧
    totalArr W L (chooseArr L elem d)
      = if elem < d.length * L then d.flatten.getD elem 0 else 0 := by
  have hvi : elem % L < L := Nat.mod_lt _ hL
  have hsplit : elem / L * L + elem % L = elem := Nat.div_add_mod' elem L
  have hiff : elem / L < d.length ↔ elem < d.length * L := Nat.div_lt_iff_lt_mul hL
  have hmain := chooseGo_flatten L (elem % L) hvi d (elem / L) h
  have hflat : (chooseArr L elem d).flatten =
      if elem < d.length * L then
        List.replicate elem 0 ++
          d.flatten.getD elem 0 :: List.replicate (d.length * L - elem - 1) 0
      else List.replicate (d.length * L) 0 := by
    rw [show chooseArr L elem d = chooseGo (elem % L) (elem / L) d from rfl, hmain]
    by_cases hcase : elem < d.length * L
    · rw [if_pos (hiff.mpr hcase), if_pos hcase,
        ← flatten_getD L d (elem / L) (elem % L) h (hiff.mpr hcase) hvi, hsplit]
    · rw [if_neg (fun hcon => hcase (hiff.mp hcon)), if_neg hcase]
  refine ⟨hflat, ?_⟩
  have hwf2 : rowsLen L (chooseArr L elem d) :=
    chooseGo_rowsLen L (elem % L) d (elem / L) h
  rw [totalArr_eq W L _ hwf2, hflat]
  by_cases hcase : elem < d.length * L
  · rw [if_pos hcase, if_pos hcase]
    have hlen : elem < d.flatten.length := by rw [flatten_length L d h]; exact hcase
    have hxmem : d.flatten.getD elem 0 ∈ d.flatten := by
      rw [List.getD_eq_getElem d.flatten 0 hlen]
      exact List.getElem_mem hlen
    have hxlt : d.flatten.getD elem 0 < W := by
      rcases List.mem_flatten.mp hxmem with ⟨r, hrmem, hxr⟩
      exact hv r hrmem _ hxr
    simp only [List.sum_append, List.sum_cons, List.sum_replicate, smul_zero,
      Nat.zero_add, Nat.add_zero]
    exact Nat.mod_eq_of_lt hxlt
  · rw [if_neg hcase, if_neg hcase]
    simp [List.sum_replicate]

theorem c4_choose_witness :
    0 < 2 ∧ rowsLen 2 [[7, 8], [9, 1]] ∧ valsLt 65536 [[7, 8], [9, 1]] ∧
    (((chooseArr 2 2 [[7, 8], [9, 1]]).flatten =
      if 2 < 2 * 2 then
        List.replicate 2 0 ++
          ([[7, 8], [9, 1]] : List (List Nat)).flatten.getD 2 0 ::
            List.replicate (2 * 2 - 2 - 1) 0
      else List.replicate (2 * 2) 0) ∧
    totalArr 65536 2 (chooseArr 2 2 [[7, 8], [9, 1]])
      = if 2 < 2 * 2 then ([[7, 8], [9, 1]] : List (List Nat)).flatten.getD 2 0 else 0) :=
  ⟨by decide, by decide, by decide,
    c4_choose 65536 2 [[7, 8], [9, 1]] 2 (by decide) (by decide) (by decide)⟩

/-! ### Set-relational helper lemmas -/

theorem zipMapArr_rowsLen (f : Nat → Nat → Nat) (L : Nat) : ∀ (A B : List (List Nat)),
    rowsLen L A → rowsLen L B → rowsLen L (zipMapArr f A B) := by
  intro A
  induction A with
  | nil => intro B _ _ q hq; simp [zipMapArr] at hq
  | cons r rs ih =>
    intro B hA hB q hq
    cases B with
    | nil => simp [zipMapArr] at hq
    | cons s ss =>
      have hr : r.length = L := hA r (by simp)
      have hs : s.length = L := hB s (by simp)
      have hrs : rowsLen L rs := fun x hx => hA x (List.mem_cons_of_mem _ hx)
      have hss : rowsLen L ss := fun x hx => hB x (List.mem_cons_of_mem _ hx)
      have hq2 : q ∈ List.zipWith f r s :: zipMapArr f rs ss := hq
      rcases List.mem_cons.mp hq2 with rfl | hq3
      · rw [List.length_zipWith, hr, hs]
        simp
      · exact ih ss hrs hss q hq3

theorem zipMapArr_flatten (f : Nat → Nat → Nat) (L : Nat) : ∀ (A B : List (List Nat)),
    rowsLen L A → rowsLen L B →
    (zipMapArr f A B).flatten = List.zipWith f A.flatten B.flatten := by
  intro A
  induction A with
  | nil => intro B _ _; simp [zipMapArr]
  | cons r rs ih =>
    intro B hA hB
    cases B with
    | nil => simp [zipMapArr]
    | cons s ss =>
      have hr : r.length = L := hA r (by simp)
      have hs : s.length = L := hB s (by simp)
      have hrs : rowsLen L rs := fun x hx => hA x (List.mem_cons_of_mem _ hx)
      have hss : rowsLen L ss := fun x hx => hB x (List.mem_cons_of_mem _ hx)
      show (List.zipWith f r s :: zipMapArr f rs ss).flatten = _
      rw [List.flatten_cons, ih ss hrs hss, List.flatten_cons, List.flatten_cons,
        List.zipWith_append f r rs.flatten s ss.flatten (hr.trans hs.symm)]

theorem zip_minmax_sum : ∀ (a b : List Nat), a.length = b.length →
    (List.zipWith Nat.max a b).sum + (List.zipWith Nat.min a b).sum
      = a.sum + b.sum := by
  intro a
  induction a with
  | nil =>
    intro b h
    cases b with
    | nil => simp
    | cons y ys => simp at h
  | cons x xs ih =>
    intro b h
    cases b with
    | nil => simp at h
    | cons y ys =>
      have hl : xs.length = ys.length := by simpa using h
      simp only [List.zipWith_cons_cons, List.sum_cons]
      have h1 := ih ys hl
      have h2 : Nat.max x y + Nat.min x y = x + y := max_add_min x y
      omega

/-- Claim C7. Inclusion–exclusion:
`total(union(A,B)) + total(intersection(A,B)) == total(A) + total(B)` in the
wrapping arithmetic `total()` uses (modulo the scalar width `W`), where union
is the elementwise maximum and intersection the elementwise minimum. -/
theorem c7_inclusion_exclusion (W L : Nat) (A B : List (List Nat))
    (hA : rowsLen L A) (hB : rowsLen L B) (hlen : A.length = B.length) :
    (totalArr W L (unionArr A B) + totalArr W L (interArr A B)) % W
      = (totalArr W L A + totalArr W L B) % W := by
  have hU : rowsLen L (unionArr A B) := zipMapArr_rowsLen Nat.max L A B hA hB
  have hI : rowsLen L (interArr A B) := zipMapArr_rowsLen Nat.min L A B hA hB
  have hflen : A.flatten.length = B.flatten.length := by
    rw [flatten_length L A hA, flatten_length L B hB, hlen]
  rw [totalArr_eq W L _ hU, totalArr_eq W L _ hI, totalArr_eq W L A hA,
    totalArr_eq W L B hB]
  rw [show unionArr A B = zipMapArr Nat.max A B from rfl,
    show interArr A B = zipMapArr Nat.min A B from rfl,
    zipMapArr_flatten Nat.max L A B hA hB, zipMapArr_flatten Nat.min L A B hA hB,
    ← Nat.add_mod, ← Nat.add_mod, zip_minmax_sum A.flatten B.flatten hflen]

theorem c7_inclusion_exclusion_witness :
    rowsLen 2 [[3, 0], [2, 0]] ∧ rowsLen 2 [[1, 1], [1, 1]] ∧
    (totalArr 65536 2 (unionArr [[3, 0], [2, 0]] [[1, 1], [1, 1]])
        + totalArr 65536 2 (interArr [[3, 0], [2, 0]] [[1, 1], [1, 1]])) % 65536
      = (totalArr 65536 2 [[3, 0], [2, 0]] + totalArr 65536 2 [[1, 1], [1, 1]]) % 65536 :=
  ⟨by decide, by decide,
    c7_inclusion_exclusion 65536 2 [[3, 0], [2, 0]] [[1, 1], [1, 1]]
      (by decide) (by decide) (by decide)⟩

theorem allZip_flat (p : Nat × Nat → Bool) (L : Nat) : ∀ (A B : List (List Nat)),
    rowsLen L A → rowsLen L B →
    ((A.zip B).all fun pr => (pr.1.zip pr.2).all p)
      = ((A.flatten.zip B.flatten).all p) := by
  intro A
  induction A with
  | nil => intro B _ _; simp
  | cons r rs ih =>
    intro B hA hB
    cases B with
    | nil => simp
    | cons s ss =>
      have hr : r.length = L := hA r (by simp)
      have hs : s.length = L := hB s (by simp)
      have hrs : rowsLen L rs := fun x hx => hA x (List.mem_cons_of_mem _ hx)
      have hss : rowsLen L ss := fun x hx => hB x (List.mem_cons_of_mem _ hx)
      simp only [List.zip_cons_cons, List.all_cons, List.flatten_cons,
        List.zip_append (hr.trans hs.symm), List.all_append]
      rw [ih ss hrs hss]

theorem anyZip_flat (p : Nat × Nat → Bool) (L : Nat) : ∀ (A B : List (List Nat)),
    rowsLen L A → rowsLen L B →
    ((A.zip B).any fun pr => (pr.1.zip pr.2).any p)
      = ((A.flatten.zip B.flatten).any p) := by
  intro A
  induction A with
  | nil => intro B _ _; simp
  | cons r rs ih =>
    intro B hA hB
    cases B with
    | nil => simp
    | cons s ss =>
      have hr : r.length = L := hA r (by simp)
      have hs : s.length = L := hB s (by simp)
      have hrs : rowsLen L rs := fun x hx => hA x (List.mem_cons_of_mem _ hx)
      have hss : rowsLen L ss := fun x hx => hB x (List.mem_cons_of_mem _ hx)
      simp only [List.zip_cons_cons, List.any_cons, List.flatten_cons,
        List.zip_append (hr.trans hs.symm), List.any_append]
      rw [ih ss hrs hss]

theorem allZip_le_antisymm : ∀ (a b : List Nat), a.length = b.length →
    ((((a.zip b).all fun q => decide (q.1 ≤ q.2)) = true ∧
      ((b.zip a).all fun q => decide (q.1 ≤ q.2)) = true) ↔ a = b) := by
  intro a
  induction a with
  | nil =>
    intro b h
    cases b with
    | nil => simp
    | cons y ys => simp at h
  | cons x xs ih =>
    intro b h
    cases b with
    | nil => simp at h
    | cons y ys =>
      have hl : xs.length = ys.length := by simpa using h
      simp only [List.zip_cons_cons, List.all_cons, Bool.and_eq_true,
        decide_eq_true_eq, List.cons.injEq]
      constructor
      · rintro ⟨⟨hxy, h1⟩, ⟨hyx, h2⟩⟩
        exact ⟨Nat.le_antisymm hxy hyx, (ih ys hl).mp ⟨h1, h2⟩⟩
      · rintro ⟨rfl, rfl⟩
        have h2 := (ih xs rfl).mpr rfl
        exact ⟨⟨le_refl x, h2.1⟩, ⟨le_refl x, h2.2⟩⟩

theorem flatten_inj (L : Nat) : ∀ (A B : List (List Nat)),
    rowsLen L A → rowsLen L B → A.length = B.length →
    (A.flatten = B.flatten ↔ A = B) := by
  intro A
  induction A with
  | nil =>
    intro B _ _ hlen
    cases B with
    | nil => simp
    | cons s ss => simp at hlen
  | cons r rs ih =>
    intro B hA hB hlen
    cases B with
    | nil => simp at hlen
    | cons s ss =>
      have hr : r.length = L := hA r (by simp)
      have hs : s.length = L := hB s (by simp)
      have hrs : rowsLen L rs := fun x hx => hA x (List.mem_cons_of_mem _ hx)
      have hss : rowsLen L ss := fun x hx => hB x (List.mem_cons_of_mem _ hx)
      have hlen2 : rs.length = ss.length := by simpa using hlen
      simp only [List.flatten_cons, List.cons.injEq]
      constructor
      · intro hcat
        obtain ⟨h1, h2⟩ := List.append_inj hcat (hr.trans hs.symm)
        exact ⟨h1, (ih ss hrs hss hlen2).mp h2⟩
      · rintro ⟨rfl, rfl⟩
        rfl

/-- Claim C8. `is_subset(A,B)` and `is_subset(B,A)` both hold exactly when
`A == B` (elementwise equality of all `N` multiplicities). -/
theorem c8_subset_antisymm (L : Nat) (A B : List (List Nat))
    (hA : rowsLen L A) (hB : rowsLen L B) (hlen : A.length = B.length) :
    (isSubsetArr A B = true ∧ isSubsetArr B A = true) ↔ A = B := by
  have hflen : A.flatten.length = B.flatten.length := by
    rw [flatten_length L A hA, flatten_length L B hB, hlen]
  rw [show isSubsetArr A B
        = ((A.zip B).all fun pr => (pr.1.zip pr.2).all fun q => decide (q.1 ≤ q.2))
      from rfl,
    show isSubsetArr B A
        = ((B.zip A).all fun pr => (pr.1.zip pr.2).all fun q => decide (q.1 ≤ q.2))
      from rfl,
    allZip_flat _ L A B hA hB, allZip_flat _ L B A hB hA,
    allZip_le_antisymm A.flatten B.flatten hflen]
  exact flatten_inj L A B hA hB hlen

theorem c8_subset_antisymm_witness :
    rowsLen 2 [[1, 2], [3, 4]] ∧ rowsLen 2 [[1, 2], [3, 4]] ∧
    ((isSubsetArr [[1, 2], [3, 4]] [[1, 2], [3, 4]] = true ∧
      isSubsetArr [[1, 2], [3, 4]] [[1, 2], [3, 4]] = true) ↔
      ([[1, 2], [3, 4]] : List (List Nat)) = [[1, 2], [3, 4]]) :=
  ⟨by decide, by decide,
    c8_subset_antisymm 2 [[1, 2], [3, 4]] [[1, 2], [3, 4]]
      (by decide) (by decide) (by decide)⟩

theorem allLe_any_lt_iff_ne : ∀ (a b : List Nat), a.length = b.length →
    ((a.zip b).all fun q => decide (q.1 ≤ q.2)) = true →
    (((a.zip b).any fun q => decide (q.1 < q.2)) = true ↔ a ≠ b) := by
  intro a
  induction a with
  | nil =>
    intro b h _
    cases b with
    | nil => simp
    | cons y ys => simp at h
  | cons x xs ih =>
    intro b h hall
    cases b with
    | nil => simp at h
    | cons y ys =>
      have hl : xs.length = ys.length := by simpa using h
      simp only [List.zip_cons_cons, List.all_cons, Bool.and_eq_true,
        decide_eq_true_eq] at hall
      obtain ⟨hxy, htail⟩ := hall
      have hih := ih ys hl htail
      simp only [List.zip_cons_cons, List.any_cons, Bool.or_eq_true,
        decide_eq_true_eq, ne_eq]
      constructor
      · rintro (hlt | hany) hcon
        · injection hcon with h1 h2
          omega
        · injection hcon with h1 h2
          exact (hih.mp hany) h2
      · intro hne
        rcases Nat.lt_or_ge x y with hlt | hge
        · exact Or.inl hlt
        · have hx : x = y := Nat.le_antisymm hxy hge
          subst hx
          refine Or.inr (hih.mpr ?_)
          intro h2
          exact hne (by rw [h2])

theorem allGe_any_gt_iff_ne : ∀ (a b : List Nat), a.length = b.length →
    ((a.zip b).all fun q => decide (q.2 ≤ q.1)) = true →
    (((a.zip b).any fun q => decide (q.2 < q.1)) = true ↔ a ≠ b) := by
  intro a
  induction a with
  | nil =>
    intro b h _
    cases b with
    | nil => simp
    | cons y ys => simp at h
  | cons x xs ih =>
    intro b h hall
    cases b with
    | nil => simp at h
    | cons y ys =>
      have hl : xs.length = ys.length := by simpa using h
      simp only [List.zip_cons_cons, List.all_cons, Bool.and_eq_true,
        decide_eq_true_eq] at hall
      obtain ⟨hxy, htail⟩ := hall
      have hih := ih ys hl htail
      simp only [List.zip_cons_cons, List.any_cons, Bool.or_eq_true,
        decide_eq_true_eq, ne_eq]
      constructor
      · rintro (hlt | hany) hcon
        · injection hcon with h1 h2
          omega
        · injection hcon with h1 h2
          exact (hih.mp hany) h2
      · intro hne
        rcases Nat.lt_or_ge y x with hlt | hge
        · exact Or.inl hlt
        · have hx : x = y := Nat.le_antisymm hge hxy
          subst hx
          refine Or.inr (hih.mpr ?_)
          intro h2
          exact hne (by rw [h2])

/-- Claim C10. The two proper-subset formulations coincide:
`is_subset(A,B) && is_any_lesser(A,B)` (as in `simd_array.rs`) holds exactly
when `A != B && is_subset(A,B)` (as in `simd_impl.rs`), and the analogous
equivalence holds for the proper-superset formulations. -/
theorem c10_proper_formulations (L : Nat) (A B : List (List Nat))
    (hA : rowsLen L A) (hB : rowsLen L B) (hlen : A.length = B.length) :
    ((isSubsetArr A B && isAnyLesserArr A B) = (decide (A ≠ B) && isSubsetArr A B)) ∧
    ((isSupersetArr A B && isAnyGreaterArr A B)
      = (decide (A ≠ B) && isSupersetArr A B)) := by
  have hflen : A.flatten.length = B.flatten.length := by
    rw [flatten_length L A hA, flatten_length L B hB, hlen]
  have hfi := flatten_inj L A B hA hB hlen
  constructor
  · rw [show isSubsetArr A B
          = ((A.zip B).all fun pr => (pr.1.zip pr.2).all fun q => decide (q.1 ≤ q.2))
        from rfl,
      show isAnyLesserArr A B
          = ((A.zip B).any fun pr => (pr.1.zip pr.2).any fun q => decide (q.1 < q.2))
        from rfl,
      allZip_flat _ L A B hA hB, anyZip_flat _ L A B hA hB]
    cases hval : ((A.flatten.zip B.flatten).all fun q => decide (q.1 ≤ q.2)) with
    | false => simp
    | true =>
      simp only [Bool.true_and, Bool.and_true]
      rw [Bool.eq_iff_iff, decide_eq_true_eq,
        allLe_any_lt_iff_ne A.flatten B.flatten hflen hval]
      exact not_congr hfi
  · rw [show isSupersetArr A B
          = ((A.zip B).all fun pr => (pr.1.zip pr.2).all fun q => decide (q.2 ≤ q.1))
        from rfl,
      show isAnyGreaterArr A B
          = ((A.zip B).any fun pr => (pr.1.zip pr.2).any fun q => decide (q.2 < q.1))
        from rfl,
      allZip_flat _ L A B hA hB, anyZip_flat _ L A B hA hB]
    cases hval : ((A.flatten.zip B.flatten).all fun q => decide (q.2 ≤ q.1)) with
    | false => simp
    | true =>
      simp only [Bool.true_and, Bool.and_true]
      rw [Bool.eq_iff_iff, decide_eq_true_eq,
        allGe_any_gt_iff_ne A.flatten B.flatten hflen hval]
      exact not_congr hfi

theorem c10_proper_formulations_witness :
    rowsLen 2 [[1, 2]] ∧ rowsLen 2 [[1, 3]] ∧
    ((isSubsetArr [[1, 2]] [[1, 3]] && isAnyLesserArr [[1, 2]] [[1, 3]])
        = (decide (([[1, 2]] : List (List Nat)) ≠ [[1, 3]]) && isSubsetArr [[1, 2]] [[1, 3]])) ∧
    ((isSupersetArr [[1, 2]] [[1, 3]] && isAnyGreaterArr [[1, 2]] [[1, 3]])
        = (decide (([[1, 2]] : List (List Nat)) ≠ [[1, 3]]) && isSupersetArr [[1, 2]] [[1, 3]])) :=
  ⟨by decide, by decide,
    (c10_proper_formulations 2 [[1, 2]] [[1, 3]] (by decide) (by decide) (by decide)).1,
    (c10_proper_formulations 2 [[1, 2]] [[1, 3]] (by decide) (by decide) (by decide)).2⟩

/-! ### `choose_random` helper lemmas -/

/-- When no wrap occurs and the ticket is reachable, the walk keeps exactly the
first position whose running sum reaches the ticket and zeroes all others. -/
theorem walkW_keeps (M : Nat) : ∀ (l : List Nat) (t acc : Nat),
    acc + l.sum < M → acc < t → t ≤ acc + l.sum →
    ∃ i, i < l.length ∧ t ≤ acc + (l.take (i + 1)).sum ∧
      (∀ j < i, acc + (l.take (j + 1)).sum < t) ∧
      walkW M t acc l
        = List.replicate i 0 ++ l.getD i 0 :: List.replicate (l.length - i - 1) 0 := by
  intro l
  induction l with
  | nil =>
    intro t acc _ h2 h3
    simp only [List.sum_nil, Nat.add_zero] at h3
    exact absurd (lt_of_lt_of_le h2 h3) (lt_irrefl acc)
  | cons e es ih =>
    intro t acc h1 h2 h3
    simp only [List.sum_cons] at h1 h3
    have hmod : (acc + e) % M = acc + e := Nat.mod_eq_of_lt (by omega)
    by_cases ht : t ≤ acc + e
    · refine ⟨0, by simp, ?_, ?_, ?_⟩
      · simp only [List.take_succ_cons, List.take_zero, List.sum_cons,
          List.sum_nil, Nat.add_zero]
        exact ht
      · intro j hj
        omega
      · simp only [walkW]
        rw [hmod, if_pos ht]
        simp
    · have ht2 : acc + e < t := by omega
      obtain ⟨i, hi, ha, hb, hc⟩ :=
        ih t (acc + e) (by omega) ht2 (by omega)
      refine ⟨i + 1, by simpa using hi, ?_, ?_, ?_⟩
      · simp only [List.take_succ_cons, List.sum_cons]
        omega
      · intro j hj
        cases j with
        | zero =>
          simp only [List.take_succ_cons, List.take_zero, List.sum_cons,
            List.sum_nil, Nat.add_zero]
          exact ht2
        | succ n =>
          have := hb n (by omega)
          simp only [List.take_succ_cons, List.sum_cons]
          omega
      · simp only [walkW]
        rw [hmod, if_neg ht, hc]
        simp only [List.replicate_succ, List.cons_append, List.getD_cons_succ,
          List.length_cons]
        have hcnt : es.length + 1 - (i + 1) - 1 = es.length - i - 1 := by omega
        rw [hcnt]

theorem scanRow_succ (W t : Nat) : ∀ (r : List Nat) (acc j : Nat),
    scanRow W t acc (j + 1) r
      = ((scanRow W t acc j r).1, (scanRow W t acc j r).2.map (fun k => k + 1)) := by
  intro r
  induction r with
  | nil => intro acc j; simp [scanRow]
  | cons x xs ih =>
    intro acc j
    simp only [scanRow]
    by_cases hx : t ≤ (acc + x) % W
    · rw [if_pos hx, if_pos hx]
      simp
    · rw [if_neg hx, if_neg hx]
      exact ih ((acc + x) % W) (j + 1)

/-- The flat walk on a row-plus-rest decomposes exactly as the per-row lane
scan followed by masking / zeroing, the way the nested loop performs it. -/
theorem walk_row (M t : Nat) (rest : List Nat) : ∀ (r : List Nat) (acc : Nat),
    walkW M t acc (r ++ rest) =
      match scanRow M t acc 0 r with
      | (_, some j) => maskRow j r ++ List.replicate rest.length 0
      | (a, none) => r.map (fun _ => 0) ++ walkW M t a rest := by
  intro r
  induction r with
  | nil =>
    intro acc
    simp [scanRow]
  | cons x xs ih =>
    intro acc
    show walkW M t acc (x :: (xs ++ rest)) = _
    simp only [walkW]
    by_cases hx : t ≤ (acc + x) % M
    · rw [if_pos hx]
      have hscan : scanRow M t acc 0 (x :: xs) = ((acc + x) % M, some 0) := by
        simp [scanRow, hx]
      rw [hscan]
      show x :: List.replicate (xs ++ rest).length 0
          = (x :: xs.map (fun _ => 0)) ++ List.replicate rest.length 0
      rw [List.cons_append, List.map_const', List.length_append, List.replicate_add]
    · rw [if_neg hx, ih ((acc + x) % M)]
      have hscan : scanRow M t acc 0 (x :: xs) = scanRow M t ((acc + x) % M) 1 xs := by
        simp [scanRow, hx]
      rw [hscan, scanRow_succ M t xs ((acc + x) % M) 0]
      rcases hres : scanRow M t ((acc + x) % M) 0 xs with ⟨a2, oj⟩
      cases oj <;> rfl

/-- The nested `choose_random` loop refines the flat accumulation walk. -/
theorem chooseRandomArrGo_flatten (W t : Nat) : ∀ (d : List (List Nat)) (acc : Nat),
    (chooseRandomArrGo W t acc d).flatten = walkW W t acc d.flatten := by
  intro d
  induction d with
  | nil => intro acc; simp [chooseRandomArrGo, walkW]
  | cons r rs ih =>
    intro acc
    rcases hscan : scanRow W t acc 0 r with ⟨a, oj⟩
    cases oj with
    | none =>
      have hgo : chooseRandomArrGo W t acc (r :: rs)
          = r.map (fun _ => 0) :: chooseRandomArrGo W t a rs := by
        simp only [chooseRandomArrGo]
        rw [hscan]
      rw [hgo, List.flatten_cons, ih a, List.flatten_cons,
        walk_row W t rs.flatten r acc, hscan]
    | some j =>
      have hgo : chooseRandomArrGo W t acc (r :: rs)
          = maskRow j r :: zeroRows rs := by
        simp only [chooseRandomArrGo]
        rw [hscan]
      rw [hgo, List.flatten_cons, zeroRows_flatten, List.flatten_cons,
        walk_row W t rs.flatten r acc, hscan]

/-- Claim C3, amended. `choose_random` of `simd_impl.rs` behaves as the claim
states: when `total() == 0` the multiset is unchanged, and for a ticket in
`[1, total()]` the first position whose running sum reaches the ticket keeps
its multiplicity while every other position is zeroed.  The `simd_array.rs`
variant performs the same walk with no zero-total short-circuit (its ticket
ranges over `[0, total()]`): its nested loop is exactly the flat accumulation
walk on the flattened multiset. -/
theorem c3_choose_random_amended :
    (∀ (data : List Nat) (t : Nat), totalDefault data = 0 → chooseRandom2 data t = data) ∧
    (∀ (data : List Nat) (t : Nat), data.sum < U64 → 1 ≤ t → t ≤ data.sum →
      ∃ i, i < data.length ∧ t ≤ (data.take (i + 1)).sum ∧
        (∀ j < i, (data.take (j + 1)).sum < t) ∧
        chooseRandom2 data t
          = List.replicate i 0 ++
              data.getD i 0 :: List.replicate (data.length - i - 1) 0) ∧
    (∀ (W t : Nat) (d : List (List Nat)),
      (chooseRandomArr W t d).flatten = walkW W t 0 d.flatten) := by
  refine ⟨?_, ?_, ?_⟩
  · intro data t h
    simp [chooseRandom2, h]
  · intro data t hs h1 ht
    have htot : totalDefault data = data.sum % U64 := foldl_addmod_zero U64 data
    have hn0 : totalDefault data ≠ 0 := by
      rw [htot, Nat.mod_eq_of_lt hs]
      omega
    obtain ⟨i, hi, ha, hb, hc⟩ :=
      walkW_keeps U64 data t 0 (by simpa using hs) (by omega) (by simpa using ht)
    refine ⟨i, hi, by simpa using ha, fun j hj => by simpa using hb j hj, ?_⟩
    unfold chooseRandom2
    rw [if_neg hn0]
    exact hc
  · intro W t d
    exact chooseRandomArrGo_flatten W t d 0

theorem c3_choose_random_amended_witness :
    chooseRandom2 [0, 0] 1 = [0, 0] ∧
    (∃ i, i < ([2, 3] : List Nat).length ∧ 4 ≤ (([2, 3] : List Nat).take (i + 1)).sum ∧
      (∀ j < i, (([2, 3] : List Nat).take (j + 1)).sum < 4) ∧
      chooseRandom2 [2, 3] 4
        = List.replicate i 0 ++
            ([2, 3] : List Nat).getD i 0 ::
              List.replicate (([2, 3] : List Nat).length - i - 1) 0) ∧
    (chooseRandomArr 256 0 [[255, 1]]).flatten
      = walkW 256 0 0 ([[255, 1]] : List (List Nat)).flatten :=
  ⟨c3_choose_random_amended.1 [0, 0] 1 (by decide),
   c3_choose_random_amended.2.1 [2, 3] 4 (by decide) (by decide) (by decide),
   c3_choose_random_amended.2.2 256 0 [[255, 1]]⟩

end MultisetSimd
